import Mathlib

/-!
Verification of the hiveGo feature-versioning encoder and the TensorFlow
scoring adapter (`src/ai/ai.go`, the versioned feature registry of
`src/ai`, and `src/ai/tensorflow/tensorflow.go`).

Shallow embedding conventions:
* Go `float32` values are modelled as `Int`; every value the embedded code
  manipulates is an exactly representable small integer or an opaque model
  output, so no rounding behaviour is lost.
* Go `int` is modelled as `Int` where negative values are possible (schema
  versions, move counters) and as `Nat` for lengths and offsets.
* A Go `log.Panicf` / fatal path is modelled as `Option.none` or as an
  explicit `Except` error constructor.
* The board/game-rules engine (package `state`, part of the repository but
  not under `src/`) is consumed through the narrow read interface the spec
  lists; it is modelled as a record of those reads.
-/

namespace HiveGo

/-- Players are `0` and `1`, as in the `state` package. -/
abbrev Player := Fin 2

/-- Modelled from the spec: the board collaborator's "opponent side" read
(`Board.OpponentPlayer`, package `state`, not under `src/`): the other
player. -/
def opponentOf (p : Player) : Player := 1 - p

/-- Modelled from the spec: board positions of the external geometry
(package `state`, not under `src/`).  Only equality and the fixed
six-neighbour adjacency of a position are consumed. -/
abbrev Pos := Int × Int

/-- Modelled from the spec: the hexagonal adjacency `Pos.Neighbours` of the
external board geometry (package `state`, not under `src/`): the six axial
hex neighbours.  No claim depends on which six positions these are, only
that the set is a function of the position. -/
def posNeighbours (p : Pos) : List Pos :=
  [(p.1 + 1, p.2), (p.1 - 1, p.2), (p.1, p.2 + 1), (p.1, p.2 - 1),
   (p.1 + 1, p.2 - 1), (p.1 - 1, p.2 + 1)]

/-- Piece kinds, numbered `1..5` as in the `state` package (`NO_PIECE = 0`).
Only the count `NUM_PIECE_TYPES = 5` and the numbering enter the encoder. -/
abbrev Piece := Nat

def NO_PIECE : Piece := 0
def QUEEN : Piece := 4

/-- Embeds `state.Pieces`: the five playable piece kinds, in order. -/
def Pieces : List Piece := [1, 2, 3, 4, 5]

/-- Embeds `state.NUM_PIECE_TYPES`. -/
def NUM_PIECE_TYPES : Nat := 5

/-- Embeds `state.TOTAL_PIECES_PER_PLAYER` (11 pieces per player in Hive). -/
def TOTAL_PIECES_PER_PLAYER : Nat := 11

/-- Modelled from the spec: a legal action as read from the board
collaborator — "each action tagged with piece type, source/target position,
and whether it is a move vs. a placement". -/
structure GameAction where
  move : Bool
  piece : Piece
  sourcePos : Pos
  targetPos : Pos
  deriving DecidableEq

/-- Modelled from the spec: the narrow read interface of the board/game
collaborator (package `state`, not under `src/`): "side to move, opponent
side, per-side piece availability counts, per-side legal-action list,
per-side adjacency-derived counters (pieces surrounding each queen,
single/leaf piece counts), finished/draw/winner flags, move-count-to-draw
arithmetic".  Each field is one read the embedded `src/` code performs. -/
structure BoardData where
  nextPlayer : Player
  /-- Embeds `Board.Available player piece`: offboard count per piece kind. -/
  available : Player → Piece → Nat
  /-- Embeds `Board.Derived.QueenPos[player]`. -/
  queenPos : Player → Pos
  /-- Embeds `Board.Derived.PlayersActions[player]`. -/
  playersActions : Player → List GameAction
  /-- Embeds `Board.OccupiedNeighbours pos` (adjacency-derived read). -/
  occupiedNeighbours : Pos → List Pos
  /-- Embeds `Board.Derived.NumSurroundingQueen[player]`. -/
  numSurroundingQueen : Player → Nat
  /-- Embeds `Board.Derived.Singles[player]`. -/
  singles : Player → Nat
  /-- Embeds `Board.Derived.NumPiecesOnBoard[player]`. -/
  numPiecesOnBoard : Player → Nat
  /-- Embeds `Board.Derived.Wins[player]`. -/
  wins : Player → Bool
  /-- Embeds `Board.IsFinished()`. -/
  isFinished : Bool
  /-- Embeds `Board.Draw()`. -/
  draw : Bool
  /-- Embeds `Board.MaxMoves`. -/
  maxMoves : Int
  /-- Embeds `Board.MoveNumber`. -/
  moveNumber : Int
  /-- Owner component of `Board.PieceAt pos` (zero-valued player for an
  empty position, as in Go). -/
  pieceOwnerAt : Pos → Player

/-- Embeds `Board.Derived.Actions`: the legal actions of the side to move (the
`state` package derives it as the next player's action list). -/
def BoardData.actions (b : BoardData) : List GameAction :=
  b.playersActions b.nextPlayer

/-- Embeds `Board.NumActions()`: the number of legal actions of the side to move. -/
def BoardData.numActions (b : BoardData) : Nat :=
  b.actions.length

/-- Embeds `Board.OpponentPlayer()`. -/
def BoardData.opponentPlayer (b : BoardData) : Player :=
  opponentOf b.nextPlayer

end HiveGo

namespace HiveGo

/-! ## The feature registry (`src/ai`, versioned variant)

Embeds the `package ai` feature code bundled with
`src/ai/tensorflow/tensorflow.go` (the versioned, `float32` registry used by
the TensorFlow scorer). -/

/-- Embeds `ai.FeatureId`: the enum of features, in declaration order.
`F_NUM_FEATURES` is only the count of the enum and is not a constructor. -/
inductive FeatureId
  | F_NUM_OFFBOARD
  | F_OPP_NUM_OFFBOARD
  | F_NUM_SURROUNDING_QUEEN
  | F_OPP_NUM_SURROUNDING_QUEEN
  | F_NUM_CAN_MOVE
  | F_OPP_NUM_CAN_MOVE
  | F_NUM_THREATENING_MOVES
  | F_OPP_NUM_THREATENING_MOVES
  | F_MOVES_TO_DRAW
  | F_NUM_SINGLE
  | F_QUEEN_COVERED
  deriving DecidableEq

open FeatureId

/-- Embeds `ai.FeatureSetter`: a feature writer.  The Go signature is
`func(b *Board, def *FeatureDef, f []float32)`; a writer reads only
`def.FId` and `def.VecIndex` from its definition, so the embedding passes
exactly those two (passing the whole `FeatureDef` would make the structure
recursive), and returns the updated buffer instead of mutating it. -/
abbrev FeatureSetter := BoardData → FeatureId → Nat → List Int → List Int

/-- Embeds `ai.FeatureDef`: feature identity, name, dimension, offset in the
concatenated vector, writer, and the introduction version (the value of
`AllFeaturesDim` when the feature was created). -/
structure FeatureDef where
  FId : FeatureId
  Name : String
  Dim : Nat
  VecIndex : Nat
  Setter : FeatureSetter
  Version : Int

/-- Embeds `ai.posInSlice`. -/
def posInSlice (slice : List Pos) (p : Pos) : Bool :=
  slice.any (fun sPos => p = sPos)

/-- Embeds `ai.fNumOffBoard`: offboard piece count per piece kind, for the side to
move, or for the opponent when invoked for `F_OPP_NUM_OFFBOARD`. -/
def fNumOffBoard : FeatureSetter := fun b fid idx f =>
  let player := if fid = F_OPP_NUM_OFFBOARD then b.opponentPlayer else b.nextPlayer
  Pieces.foldl (fun f piece => f.set (idx + piece - 1) (b.available player piece : Int)) f

/-- Embeds `ai.fNumSurroundingQueen`: pieces around the own queen, side swapped
for `F_OPP_NUM_SURROUNDING_QUEEN`. -/
def fNumSurroundingQueen : FeatureSetter := fun b fid idx f =>
  let player := if fid = F_OPP_NUM_SURROUNDING_QUEEN then b.opponentPlayer else b.nextPlayer
  f.set idx (b.numSurroundingQueen player : Int)

/-- Loop state of `ai.fNumCanMove`: the `counts` and
`countsNotQueenNeighbours` maps (`map[Piece]int`) and the `posVisited` set
(`map[Pos]bool`). -/
structure CanMoveSt where
  counts : Piece → Nat
  countsNQ : Piece → Nat
  posVisited : List Pos

/-- Embeds `ai.fNumCanMove`: per piece kind, how many distinct pieces can move,
and how many of those are not currently surrounding the opponent's queen.
Sides swapped when invoked for `F_OPP_NUM_CAN_MOVE`. -/
def fNumCanMove : FeatureSetter := fun b fid idx f =>
  let pair : Player × Player :=
    if fid = F_OPP_NUM_CAN_MOVE then (b.opponentPlayer, b.nextPlayer)
    else (b.nextPlayer, b.opponentPlayer)
  let player := pair.1
  let opponent := pair.2
  let actions := b.playersActions player
  let queenNeighbours : List Pos :=
    if b.available opponent QUEEN = 0 then b.occupiedNeighbours (b.queenPos opponent) else []
  let st : CanMoveSt :=
    actions.foldl (fun st action =>
      if action.move ∧ ¬ posInSlice st.posVisited action.sourcePos then
        { posVisited := action.sourcePos :: st.posVisited
          counts := fun q => if q = action.piece then st.counts q + 1 else st.counts q
          countsNQ := fun q =>
            if ¬ posInSlice queenNeighbours action.sourcePos ∧ q = action.piece then
              st.countsNQ q + 1
            else st.countsNQ q }
      else st)
      ⟨fun _ => 0, fun _ => 0, []⟩
  Pieces.foldl (fun f piece =>
      (f.set (idx + 2 * (piece - 1)) (st.counts piece : Int)).set
        (idx + 1 + 2 * (piece - 1)) (st.countsNQ piece : Int))
    f

/-- Loop state of `ai.fNumThreateningMoves`: the `usedPieces` map, the
`usedPositions` slice, the `canPlaceAroundQueen` flag, and the two counters
the Go code accumulates directly in `f[idx]` and `f[idx+1]`. -/
structure ThreatSt where
  usedPieces : List Pos
  usedPositions : List Pos
  canPlace : Bool
  c0 : Int
  c1 : Int

/-- One iteration of the action loop of `ai.fNumThreateningMoves`. -/
def threatStep (freeOppQueenNeighbors : List Pos) (st : ThreatSt) (action : GameAction) :
    ThreatSt :=
  if ¬ posInSlice freeOppQueenNeighbors action.targetPos ∨
      posInSlice freeOppQueenNeighbors action.sourcePos then
    st
  else if action.move then
    let st1 :=
      if ¬ posInSlice st.usedPieces action.sourcePos then
        { st with usedPieces := action.sourcePos :: st.usedPieces, c0 := st.c0 + 1 }
      else st
    if ¬ posInSlice st1.usedPositions action.targetPos then
      { st1 with usedPositions := st1.usedPositions ++ [action.targetPos], c1 := st1.c1 + 1 }
    else st1
  else
    -- Placement: records that any offboard piece can be placed around the
    -- queen and skips the used-positions accounting (`continue`).
    { st with canPlace := true }

/-- Core computation of `ai.fNumThreateningMoves`, parameterized by the
`(player, opponent)` pair the Go writer selects: the number of pieces of
`player` that can reach around `opponent`'s queen, and the number of
positions around that queen they can reach. -/
def threateningCounts (b : BoardData) (player opponent : Player) : Int × Int :=
  let actions := b.playersActions player
  if b.available opponent QUEEN > 0 then
    -- Queen not yet set up.
    (0, 0)
  else
    let freeOppQueenNeighbors := posNeighbours (b.queenPos opponent)
    let st := actions.foldl (threatStep freeOppQueenNeighbors) ⟨[], [], false, 0, 0⟩
    if st.canPlace then
      (st.c0 + ((TOTAL_PIECES_PER_PLAYER : Int) - (b.numPiecesOnBoard player : Int) : Int),
        st.c1)
    else (st.c0, st.c1)

/-- Embeds `ai.fNumThreateningMoves` (versioned variant, tensorflow.go lines
741–789).  NOTE: the side swap is guarded by `fid = F_OPP_NUM_CAN_MOVE`,
exactly as in the source — so when invoked for
`F_OPP_NUM_THREATENING_MOVES` no swap happens. -/
def fNumThreateningMoves : FeatureSetter := fun b fid idx f =>
  let pair : Player × Player :=
    if fid = F_OPP_NUM_CAN_MOVE then (b.opponentPlayer, b.nextPlayer)
    else (b.nextPlayer, b.opponentPlayer)
  let c := threateningCounts b pair.1 pair.2
  (f.set idx c.1).set (idx + 1) c.2

/-- Embeds `ai.fNumToDraw`: moves left until the automatic draw. -/
def fNumToDraw : FeatureSetter := fun b _ idx f =>
  f.set idx ((b.maxMoves - b.moveNumber + 1 : Int) : Int)

/-- Embeds `ai.fNumSingle`: "leaf" piece count for the side to move and for the
opponent. -/
def fNumSingle : FeatureSetter := fun b _ idx f =>
  (f.set idx (b.singles b.nextPlayer : Int)).set (idx + 1) (b.singles b.opponentPlayer : Int)

/-- Embeds `ai.fQueenIsCovered`: for the side to move then the opponent, whether
the piece on top of the own queen's position belongs to the other side. -/
def fQueenIsCovered : FeatureSetter := fun b _ idx f =>
  let p0 := b.nextPlayer
  let p1 := b.opponentPlayer
  (f.set idx (if b.pieceOwnerAt (b.queenPos p0) ≠ p0 then (1 : Int) else 0)).set
    (idx + 1) (if b.pieceOwnerAt (b.queenPos p1) ≠ p1 then (1 : Int) else 0)

/-- Embeds `ai.AllFeatures` as written in the source, before `init()` assigns
`VecIndex` (every entry carries `VecIndex = 0` in the literal). -/
def allFeaturesRaw : List FeatureDef :=
  [⟨F_NUM_OFFBOARD, "NumOffboard", NUM_PIECE_TYPES, 0, fNumOffBoard, 0⟩,
   ⟨F_OPP_NUM_OFFBOARD, "OppNumOffboard", NUM_PIECE_TYPES, 0, fNumOffBoard, 0⟩,
   ⟨F_NUM_SURROUNDING_QUEEN, "NumSurroundingQueen", 1, 0, fNumSurroundingQueen, 0⟩,
   ⟨F_OPP_NUM_SURROUNDING_QUEEN, "OppNumSurroundingQueen", 1, 0, fNumSurroundingQueen, 0⟩,
   ⟨F_NUM_CAN_MOVE, "NumCanMove", 2 * NUM_PIECE_TYPES, 0, fNumCanMove, 0⟩,
   ⟨F_OPP_NUM_CAN_MOVE, "OppNumCanMove", 2 * NUM_PIECE_TYPES, 0, fNumCanMove, 0⟩,
   ⟨F_NUM_THREATENING_MOVES, "NumThreateningMoves", 2, 0, fNumThreateningMoves, 0⟩,
   ⟨F_OPP_NUM_THREATENING_MOVES, "OppNumThreateningMoves", 2, 0, fNumThreateningMoves, 39⟩,
   ⟨F_MOVES_TO_DRAW, "MovesToDraw", 1, 0, fNumToDraw, 0⟩,
   ⟨F_NUM_SINGLE, "NumSingle", 2, 0, fNumSingle, 0⟩,
   ⟨F_QUEEN_COVERED, "QueenIsCovered", 2, 0, fQueenIsCovered, 41⟩]

/-- The `VecIndex` assignment pass of the `ai` package `init()`: running sum
of dimensions, in registry order. -/
def setVecIndices : Nat → List FeatureDef → List FeatureDef
  | _, [] => []
  | n, d :: rest => { d with VecIndex := n } :: setVecIndices (n + d.Dim) rest

/-- Embeds `ai.AllFeatures` after `init()`. -/
def AllFeatures : List FeatureDef := setVecIndices 0 allFeaturesRaw

/-- Embeds `ai.AllFeaturesDim`: total width of the concatenated feature vector,
computed by the same `init()` pass. -/
def AllFeaturesDim : Nat := (allFeaturesRaw.map (fun d => d.Dim)).sum

/-- Embeds `ai.FeatureVector b version` (versioned variant, tensorflow.go lines
641–666).  `none` models the two fatal paths: the `log.Panicf` when
`version > AllFeaturesDim`, and — when `version ≠ AllFeaturesDim` so the
second pass allocates `make([]float32, 0, version)` — the runtime
`makeslice: cap out of range` panic that allocation raises for a negative
`version`.  The scratch pass runs every writer whose introduction version
is at most `version` into a full-width buffer; the second pass then copies
out only the slices of the included features, in registry order. -/
def FeatureVector (b : BoardData) (version : Int) : Option (List Int) :=
  if version > (AllFeaturesDim : Int) then none
  else
    let f := AllFeatures.foldl
      (fun f featDef =>
        if featDef.Version ≤ version then featDef.Setter b featDef.FId featDef.VecIndex f
        else f)
      (List.replicate AllFeaturesDim (0 : Int))
    if version ≠ (AllFeaturesDim : Int) then
      if version < 0 then
        -- make([]float32, 0, version) panics on a negative capacity.
        none
      else
        some (AllFeatures.foldl
          (fun newF featDef =>
            if featDef.Version ≤ version then
              newF ++ ((f.drop featDef.VecIndex).take featDef.Dim)
            else newF)
          [])
    else some f

/-- The features whose introduction version is at most `v`, in registry
order — exactly the features `FeatureVector` includes for version `v`. -/
def includedFeatures (v : Int) : List FeatureDef :=
  AllFeatures.filter (fun d => d.Version ≤ v)

/-- The pure slice a feature's writer produces for a board: the writer
applied at offset `0` to a zeroed buffer of the feature's dimension
(writers fully populate their slice and read nothing else from the
buffer). -/
def featSlice (b : BoardData) (d : FeatureDef) : List Int :=
  d.Setter b d.FId 0 (List.replicate d.Dim (0 : Int))

/-- Offset of a feature (by identity) inside the compacted vector laid out
for the given feature list: the sum of the dimensions preceding it. -/
def layoutOffset : List FeatureDef → FeatureId → Nat
  | [], _ => 0
  | d :: rest, fid => if d.FId = fid then 0 else d.Dim + layoutOffset rest fid

/-- A sequence of consecutive `List.set` writes starting at an offset: the
shape every feature writer's buffer updates take. -/
def setChain : List Int → Nat → List Int → List Int
  | f, _, [] => f
  | f, i, v :: rest => setChain (f.set i v) (i + 1) rest

/-- Contiguity of a feature list: offsets are the running sum of the
dimensions, starting at `s` — the invariant the registry `init()`
establishes. -/
def contiguousFrom : Nat → List FeatureDef → Prop
  | _, [] => True
  | s, d :: rest => d.VecIndex = s ∧ contiguousFrom (s + d.Dim) rest

/-! ## `src/ai/ai.go`: Scorer abstraction -/

/-- Embeds `ai.EndGameScore`: whether the game is over, and the hard-coded score
for the current player if it is (`0` on a draw, `10` when the side to move
has won, `-10` otherwise). -/
def EndGameScore (b : BoardData) : Bool × Int :=
  if ¬ b.isFinished then (false, 0)
  else if b.draw then (true, 0)
  else if b.wins b.nextPlayer then
    -- Current player wins.
    (true, 10)
  else
    -- Opponent player wins.
    (true, -10)

/-- An abstract `ai.Scorer` (`src/ai/ai.go` interface): a single-position
scoring function returning a value and optional action probabilities
(`nil` modelled as `none`). -/
abbrev ScoreFn := BoardData → Int × Option (List Int)

/-- The loop of `ai.BatchScorerWrapper.BatchScore`: `ii` is the loop index,
`n = len(boards)`; `batch = none` models the not-yet-allocated `nil`
`actionProbsBatch`, allocated as `make([][]float32, n)` (all entries `nil`)
the first time a board yields non-`nil` probabilities. -/
def bswLoop (score : ScoreFn) (n : Nat) :
    Nat → List BoardData → List Int → Option (List (Option (List Int))) →
      List Int × Option (List (Option (List Int)))
  | _, [], scores, batch => (scores, batch)
  | ii, b :: rest, scores, batch =>
    let r := score b
    let batch' : Option (List (Option (List Int))) :=
      match r.2 with
      | none => batch
      | some probs =>
        some ((batch.getD (List.replicate n none)).set ii (some probs))
    bswLoop score n (ii + 1) rest (scores ++ [r.1]) batch'

/-- Embeds `ai.BatchScorerWrapper.BatchScore`: the default batch adapter that
loops calling `Score`. -/
def BatchScorerWrapperBatchScore (score : ScoreFn) (boards : List BoardData) :
    List Int × Option (List (Option (List Int))) :=
  bswLoop score boards.length 0 boards [] none

/-! ## `src/ai/tensorflow/tensorflow.go`: the Model Execution Adapter -/

/-- The pieces of `tensorflow.Scorer` state the embedded code reads: the
session pool (sessions modelled as opaque numeric handles), the rotation
index, and the model's schema version. -/
structure TFScorer where
  sessionPool : List Nat
  sessionTurn : Nat
  version : Int

/-- Embeds `Scorer.NextSession`: returns the session at the rotation index and
advances the index modulo the pool size (the only mutation, performed
under the mutex; pool membership is untouched). -/
def NextSession (s : TFScorer) : Nat × TFScorer :=
  (s.sessionPool.getD s.sessionTurn 0,
    { s with sessionTurn := (s.sessionTurn + 1) % s.sessionPool.length })

/-- Runs `n` consecutive `NextSession` calls: the returned sessions in call
order, and the final scorer state. -/
def runNextSessions : Nat → TFScorer → List Nat × TFScorer
  | 0, s => ([], s)
  | n + 1, s =>
    let r := NextSession s
    let rest := runNextSessions n r.2
    (r.1 :: rest.1, rest.2)

/-- The input tensors `Scorer.buildFeeds` constructs that the claims
consume: the per-board feature vectors and the per-action owning-board
indices (`actions_board_indices`).  The per-action spatial tensors
(`NewActionFeatures`, source/target centers and neighbourhoods) are built
by action-encoder code absent from `src/` and never influence control flow
or any claim, so they are not modelled. -/
structure Feeds where
  boardFeatures : List (List Int)
  actionsBoardIndices : List Nat
  deriving DecidableEq

/-- The total legal-action count of a batch, as accumulated by the first
loop of `Scorer.buildFeeds`. -/
def totalNumActions (boards : List BoardData) : Nat :=
  (boards.map (fun b => b.actions.length)).sum

/-- Collects a list of optional values, failing when any entry is `none`
(used to propagate a `FeatureVector` panic out of the feed-building loop). -/
def collectSome : List (Option (List Int)) → Option (List (List Int))
  | [] => some []
  | none :: _ => none
  | some x :: rest => (collectSome rest).map (x :: ·)

/-- Embeds `Scorer.buildFeeds`: total legal-action count over the batch, feature
vectors at the model's version, and one owning-board index per action.
`none` models the panic `FeatureVector` raises when the version exceeds
the registry width. -/
def buildFeeds (s : TFScorer) (boards : List BoardData) : Option (Feeds × Nat) :=
  match collectSome (boards.map (fun b => FeatureVector b s.version)) with
  | none => none
  | some boardFeatures =>
    some ({ boardFeatures := boardFeatures
            actionsBoardIndices :=
              (boards.enum.map (fun p => List.replicate p.2.actions.length p.1)).flatten },
      totalNumActions boards)

/-- The two output tensors `Scorer.BatchScore` may fetch. -/
inductive TFFetch
  | boardPredictions
  | actionsPredictions
  deriving DecidableEq

/-- The external TensorFlow runtime, consumed as an opaque
"run(feeds, fetch) → tensor" capability (one result list per requested
fetch, as `tf.Session.Run` returns), plus the train-and-fetch-loss step
`Scorer.Learn` runs on session 0. -/
structure TFBackend where
  run : Feeds → TFFetch → List Int
  loss : Feeds → List Int → List Int → Int → Nat → Int

/-- The fetch list `Scorer.BatchScore` requests: always the value
predictions, plus the action probabilities exactly when the batch has at
least one legal action. -/
def batchScoreFetches (totalNumActions : Nat) : List TFFetch :=
  [TFFetch.boardPredictions] ++
    (if totalNumActions > 0 then [TFFetch.actionsPredictions] else [])

/-- The demultiplexing loop of `Scorer.BatchScore`: consume
`board.NumActions()` entries of the flat probability stream per board, in
submission order.  `none` models the slice-bounds panic when the stream is
shorter than a board's action count (the source's explicit
`len(actionProbsBatch[boardIdx]) != board.NumActions()` re-check fails in
exactly that situation). -/
def sliceActionProbs : List BoardData → List Int → Option (List (List Int))
  | [], _ => some []
  | b :: rest, allActionsProbs =>
    let seg := allActionsProbs.take b.numActions
    if seg.length ≠ b.numActions then none
    else (sliceActionProbs rest (allActionsProbs.drop b.actions.length)).map (seg :: ·)

/-- Reference segmentation: cut a flat stream into consecutive segments of
the given lengths, in order.  Used to state what the demultiplexing loop
of `Scorer.BatchScore` produces. -/
def segmentsByCounts : List Nat → List Int → List (List Int)
  | [], _ => []
  | n :: rest, probs => probs.take n :: segmentsByCounts rest (probs.drop n)

/-- Embeds `Scorer.BatchScore`: `none` models the panics (empty board list, a
version-skewed `FeatureVector` call, a value-prediction count differing
from the board count, an action-probability count differing from the total
action count).  When the batch has no legal action at all, the
action-probability output is not fetched and every board gets the empty
probability slice (the `nil` entries of the freshly `make`d batch). -/
def BatchScore (s : TFScorer) (backend : TFBackend) (boards : List BoardData) :
    Option (List Int × List (List Int)) :=
  if boards.length = 0 then none
  else
    match buildFeeds s boards with
    | none => none
    | some (feeds, totalNumActions) =>
      let fetches := batchScoreFetches totalNumActions
      let results := fetches.map (backend.run feeds)
      let scores := results.getD 0 []
      if scores.length ≠ boards.length then none
      else if totalNumActions > 0 then
        let allActionsProbs := results.getD 1 []
        if allActionsProbs.length ≠ totalNumActions then none
        else (sliceActionProbs boards allActionsProbs).map (fun batch => (scores, batch))
      else some (scores, List.replicate boards.length [])

/-- Embeds `Scorer.Score`: scores a singleton batch and returns its only entry. -/
def TFScore (s : TFScorer) (backend : TFBackend) (b : BoardData) :
    Option (Int × List Int) :=
  (BatchScore s backend [b]).map (fun r => (r.1.getD 0 0, r.2.getD 0 []))

/-- Modelled from the spec: the caller-level scoring entry point (the
search/player driver in `ai/players`, part of the repository but not under
`src/`) that applies the terminal-state shortcut — "if the board is already
finished, scoring must bypass the model and return a fixed constant …
checked before any feature encoding or model invocation" — via the real
`EndGameScore` of `src/ai/ai.go`, and otherwise defers to the TensorFlow
scorer.  `tensorflow.Scorer.Score` itself performs no terminal check. -/
def scoreWithEndGameShortcut (s : TFScorer) (backend : TFBackend) (b : BoardData) :
    Option (Int × List Int) :=
  let r := EndGameScore b
  if r.1 then some (r.2, []) else TFScore s backend b

/-- The failure modes of `Scorer.Learn` / `Scorer.Save` (each a
`log.Panicf` in the source). -/
inductive TFError
  | poolTooLarge
  | versionSkew
  | emptyBoards
  | indexRange
  | labelsSize
  | sparseTotal
  deriving DecidableEq

/-- The label-collection loop of `Scorer.Learn`: a board's label list is
skipped when empty, must match the board's action count when non-empty,
and the non-empty lists are concatenated in order.  `ii` is the loop index
of `range actionsLabels`; `indexRange` models the Go index-out-of-range
panic on `boards[ii]` when `actionsLabels` is longer than `boards` and the
extra entry is non-empty. -/
def buildSparseLabels (boards : List BoardData) :
    Nat → List (List Int) → Except TFError (List Int)
  | _, [] => Except.ok []
  | ii, labels :: rest =>
    if labels.length > 0 then
      match boards[ii]? with
      | none => Except.error TFError.indexRange
      | some bd =>
        if labels.length ≠ bd.numActions then Except.error TFError.labelsSize
        else (buildSparseLabels boards (ii + 1) rest).map (labels ++ ·)
    else buildSparseLabels boards (ii + 1) rest

/-- Embeds `Scorer.Learn`: requires a single-session pool (checked first), builds
the feeds, rejects empty batches, validates the per-action labels, and runs
the external train loop (abstracted as `backend.loss`). -/
def Learn (s : TFScorer) (backend : TFBackend) (boards : List BoardData)
    (boardLabels : List Int) (actionsLabels : List (List Int))
    (learningRate : Int) (steps : Nat) : Except TFError Int :=
  if s.sessionPool.length > 1 then Except.error TFError.poolTooLarge
  else
    match buildFeeds s boards with
    | none => Except.error TFError.versionSkew
    | some (feeds, totalNumActions) =>
      if boards.length = 0 then Except.error TFError.emptyBoards
      else
        match buildSparseLabels boards 0 actionsLabels with
        | Except.error e => Except.error e
        | Except.ok actionsSparseLabels =>
          if actionsSparseLabels.length ≠ totalNumActions then
            Except.error TFError.sparseTotal
          else Except.ok (backend.loss feeds boardLabels actionsSparseLabels learningRate steps)

/-- Embeds `Scorer.Save`: requires a single-session pool (checked first); the
checkpoint backup renames are best-effort (logged, never fatal) and the
graph save runs on the external runtime, so beyond the pool guard the
operation proceeds. -/
def Save (s : TFScorer) : Except TFError Unit :=
  if s.sessionPool.length > 1 then Except.error TFError.poolTooLarge
  else Except.ok ()

/-! ## Concrete fixtures used by counterexamples and witnesses -/

/-- An empty position with no pieces placed and no legal actions. -/
def trivialBoard : BoardData where
  nextPlayer := 0
  available := fun _ _ => 0
  queenPos := fun _ => (0, 0)
  playersActions := fun _ => []
  occupiedNeighbours := fun _ => []
  numSurroundingQueen := fun _ => 0
  singles := fun _ => 0
  numPiecesOnBoard := fun _ => 0
  wins := fun _ => false
  isFinished := false
  draw := false
  maxMoves := 0
  moveNumber := 0
  pieceOwnerAt := fun _ => 0

/-- A board exhibiting the opponent-threat asymmetry: both queens are
placed, the side to move (player 0) has one move reaching a position next
to the opponent's queen at `(0,0)`, and the opponent (player 1) has no
legal action at all — so the two perspectives of the threatening-moves
computation differ. -/
def bugBoard : BoardData where
  nextPlayer := 0
  available := fun _ _ => 0
  queenPos := fun p => if p = 1 then (0, 0) else (5, 5)
  playersActions := fun p => if p = 0 then [⟨true, 1, (3, 3), (1, 0)⟩] else []
  occupiedNeighbours := fun _ => []
  numSurroundingQueen := fun _ => 0
  singles := fun _ => 0
  numPiecesOnBoard := fun _ => 0
  wins := fun _ => false
  isFinished := false
  draw := false
  maxMoves := 0
  moveNumber := 0
  pieceOwnerAt := fun _ => 0

/-- A finished board won by the side to move. -/
def wonBoard : BoardData :=
  { trivialBoard with isFinished := true, wins := fun p => p = 0 }

/-- A board with exactly `n` legal actions for the side to move (dummy
placements on distinct targets). -/
def boardWithActions (n : Nat) : BoardData :=
  { trivialBoard with
    playersActions := fun p =>
      if p = 0 then (List.range n).map (fun k => ⟨false, 1, (0, 0), ((k : Int), 0)⟩) else [] }

/-- A dummy scorer state: one session, full-width schema. -/
def oneSessionScorer : TFScorer := ⟨[7], 0, (AllFeaturesDim : Int)⟩

/-- A dummy two-session scorer state. -/
def twoSessionScorer : TFScorer := ⟨[7, 8], 0, (AllFeaturesDim : Int)⟩

/-- A backend returning fixed streams: distinct value predictions for up to
three boards and seven action probabilities. -/
def fixedBackend : TFBackend where
  run := fun _ fetch =>
    match fetch with
    | TFFetch.boardPredictions => [100, 200, 300]
    | TFFetch.actionsPredictions => [1, 2, 3, 4, 5, 6, 7]
  loss := fun _ _ _ _ _ => 42

/-- A singleton batch: against `fixedBackend` (three value predictions) it
exercises the value-cardinality panic. -/
def oneBoardBatch : List BoardData := [boardWithActions 2]

/-- The feeds `buildFeeds` produces for `oneBoardBatch`. -/
def feedsB2 : Feeds :=
  ((buildFeeds oneSessionScorer oneBoardBatch).getD (⟨[], []⟩, 0)).1

/-- The `[2, 0, 5]` legal-action-count scenario of the spec. -/
def scenarioBatch : List BoardData :=
  [boardWithActions 2, boardWithActions 0, boardWithActions 5]

/-- The feeds `buildFeeds` produces for `scenarioBatch`. -/
def feedsScenario : Feeds :=
  ((buildFeeds oneSessionScorer scenarioBatch).getD (⟨[], []⟩, 0)).1

/-- A concrete single-position scorer: value is the action count, and
action probabilities are returned only when the board has actions. -/
def exampleScoreFn : ScoreFn := fun b =>
  ((b.numActions : Int), if b.numActions > 0 then some [3] else none)

/-- A two-board list where the first board yields action probabilities and
the second does not. -/
def exampleBoards : List BoardData := [boardWithActions 1, boardWithActions 0]

end HiveGo

namespace HiveGo

/-! ## Supporting lemmas -/

/-- The label-collection loop can only fail with an index or a size error,
never with the pool misconfiguration. -/
theorem buildSparseLabels_ne_poolTooLarge (boards : List BoardData) :
    ∀ (ii : Nat) (ls : List (List Int)),
      buildSparseLabels boards ii ls ≠ Except.error TFError.poolTooLarge := by
  intro ii ls
  induction ls generalizing ii with
  | nil => simp [buildSparseLabels]
  | cons labels rest ih =>
    unfold buildSparseLabels
    split
    · match hb : boards[ii]? with
      | none => simp [hb]
      | some bd =>
        simp only [hb]
        split
        · simp
        · rcases hr : buildSparseLabels boards (ii + 1) rest with e | v
          · have hne := ih (ii + 1)
            rw [hr] at hne
            simpa [Except.map] using hne
          · simp [Except.map]
    · exact ih (ii + 1)

theorem runNextSessions_sessionPool (n : Nat) (s : TFScorer) :
    (runNextSessions n s).2.sessionPool = s.sessionPool := by
  induction n generalizing s with
  | zero => rfl
  | succ n ih => simpa [runNextSessions, NextSession] using ih _

theorem runNextSessions_fst (n : Nat) (s : TFScorer)
    (hP : 0 < s.sessionPool.length) (ht : s.sessionTurn < s.sessionPool.length) :
    (runNextSessions n s).1 =
      (List.range n).map
        (fun k => s.sessionPool.getD ((s.sessionTurn + k) % s.sessionPool.length) 0) := by
  induction n generalizing s with
  | zero => simp [runNextSessions]
  | succ n ih =>
    have hmod : (s.sessionTurn + 1) % s.sessionPool.length < s.sessionPool.length :=
      Nat.mod_lt _ hP
    have := ih ⟨s.sessionPool, (s.sessionTurn + 1) % s.sessionPool.length, s.version⟩
      (by simpa using hP) (by simpa using hmod)
    simp only [runNextSessions, NextSession] at this ⊢
    rw [this, List.range_succ_eq_map, List.map_cons, List.map_map, List.cons_eq_cons]
    constructor
    · rw [Nat.add_zero, Nat.mod_eq_of_lt ht]
    · apply List.map_congr_left
      intro k _
      simp only [Function.comp_apply]
      rw [Nat.mod_add_mod]
      have harg : s.sessionTurn + 1 + k = s.sessionTurn + k.succ := by omega
      rw [harg]

/-- Rotating reads of a list by index arithmetic produce the rotation. -/
theorem range_map_getD_mod (l : List Nat) (t : Nat) (ht : t < l.length) :
    (List.range l.length).map (fun k => l.getD ((t + k) % l.length) 0) =
      l.drop t ++ l.take t := by
  apply List.ext_getElem
  · simp; omega
  · intro i h1 h2
    have hP : 0 < l.length := by omega
    have hlen : i < l.length := by simpa using h1
    rw [List.getElem_map, List.getElem_range]
    rcases Nat.lt_or_ge i (l.length - t) with hc | hc
    · have hm : (t + i) % l.length = t + i := Nat.mod_eq_of_lt (by omega)
      rw [hm, List.getElem_append_left (by simp; omega)]
      rw [List.getElem_drop]
      exact List.getD_eq_getElem l 0 (by omega)
    · have hm : (t + i) % l.length = t + i - l.length := by
        rw [Nat.mod_eq_sub_mod (by omega)]
        exact Nat.mod_eq_of_lt (by omega)
      rw [hm, List.getElem_append_right (by simp; omega)]
      rw [List.getElem_take]
      · rw [List.getD_eq_getElem l 0 (by omega)]
        congr 1
        simp
        omega

/-! ## Claim theorems -/

/-- C6 counterexample: the claim "fails fatally if and only if the version
exceeds the full width" is false at version `-1`, which does not exceed
the full width yet makes `FeatureVector` fail fatally (the compacted
buffer allocation `make([]float32, 0, version)` panics on a negative
capacity). -/
theorem featureVector_fatal_counterexample :
    FeatureVector trivialBoard (-1) = none
      ∧ (-1 : Int) ≤ (AllFeaturesDim : Int) :=
  ⟨by decide, by decide⟩

/-- C6 (amended): `FeatureVector` fails fatally exactly when the requested
version exceeds the registry's full width `AllFeaturesDim` (the explicit
`log.Panicf` guard) or is negative (the compacted buffer allocation panics
on a negative capacity); for every version between `0` and the full width
it returns a vector. -/
theorem featureVector_fatal_iff (b : BoardData) (v : Int) :
    FeatureVector b v = none ↔ ((AllFeaturesDim : Int) < v ∨ v < 0) := by
  unfold FeatureVector
  split
  · next h =>
    exact iff_of_true rfl (Or.inl h)
  · next hgt =>
    split
    · next hne =>
      split
      · next hneg =>
        exact iff_of_true rfl (Or.inr hneg)
      · next hneg =>
        exact iff_of_false (by simp) (by omega)
    · next hne =>
      exact iff_of_false (by simp) (by omega)

/-- C5: for a pool of size `P` with the rotation index in range, `P`
consecutive `NextSession` calls return the rotation of the pool starting
at the current index (hence every pooled session exactly once, as a
permutation of the pool), the `(P+1)`-th call returns the same session as
the first, and no number of calls ever changes the pool membership — only
the rotation index is mutated. -/
theorem nextSession_roundRobin (s : TFScorer)
    (hP : 0 < s.sessionPool.length) (ht : s.sessionTurn < s.sessionPool.length) :
    (runNextSessions s.sessionPool.length s).1 =
        s.sessionPool.drop s.sessionTurn ++ s.sessionPool.take s.sessionTurn
      ∧ (runNextSessions s.sessionPool.length s).1.Perm s.sessionPool
      ∧ (runNextSessions (s.sessionPool.length + 1) s).1.getD s.sessionPool.length 0 =
          (runNextSessions (s.sessionPool.length + 1) s).1.getD 0 0
      ∧ ∀ n, (runNextSessions n s).2.sessionPool = s.sessionPool := by
  have hrot := range_map_getD_mod s.sessionPool s.sessionTurn ht
  have hfst := runNextSessions_fst s.sessionPool.length s hP ht
  refine ⟨hfst.trans hrot, ?_, ?_, fun n => runNextSessions_sessionPool n s⟩
  · rw [hfst.trans hrot]
    have hperm : (s.sessionPool.take s.sessionTurn ++
        s.sessionPool.drop s.sessionTurn).Perm s.sessionPool := by
      rw [List.take_append_drop]
    exact List.perm_append_comm.trans hperm
  · rw [runNextSessions_fst _ s hP ht]
    have hm : ∀ m, m < s.sessionPool.length + 1 →
        (List.map
            (fun k => s.sessionPool.getD ((s.sessionTurn + k) % s.sessionPool.length) 0)
            (List.range (s.sessionPool.length + 1))).getD m 0 =
          s.sessionPool.getD ((s.sessionTurn + m) % s.sessionPool.length) 0 := by
      intro m hmlt
      rw [List.getD_eq_getElem?_getD, List.getElem?_map, List.getElem?_range hmlt]
      rfl
    rw [hm _ (by omega), hm _ (by omega), Nat.add_zero, Nat.add_mod_right]

/-- C8: `Learn` and `Save` fail fatally, before any training step or
checkpoint write, exactly on a multi-session pool; with a single session
neither reports that misconfiguration (`Save` proceeds outright). -/
theorem learn_save_pool_guard (s : TFScorer) (backend : TFBackend)
    (boards : List BoardData) (boardLabels : List Int)
    (actionsLabels : List (List Int)) (lr : Int) (steps : Nat) :
    (1 < s.sessionPool.length →
        Learn s backend boards boardLabels actionsLabels lr steps =
            Except.error TFError.poolTooLarge
          ∧ Save s = Except.error TFError.poolTooLarge)
      ∧ (s.sessionPool.length = 1 →
        Learn s backend boards boardLabels actionsLabels lr steps ≠
            Except.error TFError.poolTooLarge
          ∧ Save s = Except.ok ()) := by
  constructor
  · intro h
    constructor
    · simp [Learn, h]
    · simp [Save, h]
  · intro h
    have hno : ¬ s.sessionPool.length > 1 := by omega
    refine ⟨?_, by simp [Save, hno]⟩
    unfold Learn
    rw [if_neg hno]
    split
    · simp
    · split
      · simp
      · split
        · next e _ heq =>
          intro hcon
          apply buildSparseLabels_ne_poolTooLarge boards 0 actionsLabels
          rw [heq]
          simpa using hcon
        · split <;> simp

/-- Witness for C5 at a concrete two-session pool. -/
theorem nextSession_roundRobin_witness :
    (runNextSessions 2 twoSessionScorer).1 = [7, 8] := by
  have h := nextSession_roundRobin twoSessionScorer (by decide) (by decide)
  simpa [twoSessionScorer] using h.1

/-- Witness for C8: a two-session pool rejects `Learn`, a one-session pool
saves. -/
theorem learn_save_pool_guard_witness :
    Learn twoSessionScorer fixedBackend [trivialBoard] [0] [[]] 1 1 =
        Except.error TFError.poolTooLarge
      ∧ Save oneSessionScorer = Except.ok () :=
  ⟨((learn_save_pool_guard twoSessionScorer fixedBackend [trivialBoard] [0] [[]] 1 1).1
      (by decide)).1,
    ((learn_save_pool_guard oneSessionScorer fixedBackend [trivialBoard] [0] [[]] 1 1).2
      (by decide)).2⟩

/-- C2: on a finished board, the scoring entry point returns the fixed
terminal constant computed by `EndGameScore` — `0` on a draw, `10` when
the side to move has won, `-10` when it has lost — and its result is
independent of the scorer state and the model backend (the model is never
invoked, no features are encoded). -/
theorem endGameShortcut_constant (b : BoardData) (s s' : TFScorer)
    (bk bk' : TFBackend) (hf : b.isFinished = true) :
    scoreWithEndGameShortcut s bk b = scoreWithEndGameShortcut s' bk' b
      ∧ scoreWithEndGameShortcut s bk b = some ((EndGameScore b).2, [])
      ∧ (b.draw = true → (EndGameScore b).2 = 0)
      ∧ (b.draw = false → b.wins b.nextPlayer = true → (EndGameScore b).2 = 10)
      ∧ (b.draw = false → b.wins b.nextPlayer = false → (EndGameScore b).2 = -10) := by
  have hEnd : (EndGameScore b).1 = true := by
    simp only [EndGameScore, hf]
    split_ifs <;> simp_all
  refine ⟨?_, ?_, ?_, ?_, ?_⟩
  · simp [scoreWithEndGameShortcut, hEnd]
  · simp [scoreWithEndGameShortcut, hEnd]
  · intro hd
    simp [EndGameScore, hf, hd]
  · intro hd hw
    simp [EndGameScore, hf, hd, hw]
  · intro hd hw
    simp [EndGameScore, hf, hd, hw]

/-- Witness for C2 at a concrete won finished board. -/
theorem endGameShortcut_constant_witness :
    scoreWithEndGameShortcut oneSessionScorer fixedBackend wonBoard = some (10, []) := by
  have h := endGameShortcut_constant wonBoard oneSessionScorer oneSessionScorer
    fixedBackend fixedBackend rfl
  have h10 : (EndGameScore wonBoard).2 = 10 := by decide
  rw [h.2.1, h10]

/-- When the flat stream has exactly the batch's total action count, the
demultiplexing loop succeeds and produces the segments of the boards'
action counts, in submission order. -/
theorem sliceActionProbs_eq_segments :
    ∀ (boards : List BoardData) (probs : List Int),
      probs.length = totalNumActions boards →
      sliceActionProbs boards probs =
        some (segmentsByCounts (boards.map (fun b => b.numActions)) probs) := by
  intro boards
  induction boards with
  | nil =>
    intro probs _
    simp [sliceActionProbs, segmentsByCounts]
  | cons b rest ih =>
    intro probs hlen
    have htot : totalNumActions (b :: rest) = b.actions.length + totalNumActions rest := by
      simp [totalNumActions]
    have hge : b.numActions ≤ probs.length := by
      unfold BoardData.numActions
      omega
    unfold sliceActionProbs
    rw [if_neg (by simp [List.length_take]; omega)]
    rw [ih (probs.drop b.actions.length) (by simp; omega)]
    simp [segmentsByCounts, BoardData.numActions]

/-- Segmenting by counts summing to zero yields only empty segments. -/
theorem segmentsByCounts_zero :
    ∀ (counts : List Nat), counts.sum = 0 →
      ∀ probs, segmentsByCounts counts probs = List.replicate counts.length [] := by
  intro counts
  induction counts with
  | nil => intro _ _; rfl
  | cons n rest ih =>
    intro hsum probs
    have hn : n = 0 := by simp at hsum; omega
    have hr : rest.sum = 0 := by simp at hsum; omega
    simp [segmentsByCounts, hn, ih hr, List.replicate_succ]

theorem batchScoreFetches_map_getD0 (backend : TFBackend) (feeds : Feeds) (total : Nat) :
    ((batchScoreFetches total).map (backend.run feeds)).getD 0 [] =
      backend.run feeds TFFetch.boardPredictions := by
  by_cases h : total > 0 <;> simp [batchScoreFetches, h]

theorem batchScoreFetches_map_getD1 (backend : TFBackend) (feeds : Feeds) (total : Nat)
    (h : 0 < total) :
    ((batchScoreFetches total).map (backend.run feeds)).getD 1 [] =
      backend.run feeds TFFetch.actionsPredictions := by
  simp [batchScoreFetches, h]

/-- C4: the action-probability output is fetched exactly when the batch's
total legal-action count is positive, and the flat probability stream is
sliced into per-board segments consuming each board's legal-action count,
in submission order (for all-terminal batches every board gets the empty
segment without any fetch). -/
theorem batchScore_fetch_and_slicing (s : TFScorer) (backend : TFBackend)
    (boards : List BoardData) (feeds : Feeds)
    (hne : boards ≠ [])
    (hbf : buildFeeds s boards = some (feeds, totalNumActions boards))
    (hvals : (backend.run feeds TFFetch.boardPredictions).length = boards.length)
    (hprobs : 0 < totalNumActions boards →
      (backend.run feeds TFFetch.actionsPredictions).length = totalNumActions boards) :
    (TFFetch.actionsPredictions ∈ batchScoreFetches (totalNumActions boards) ↔
        0 < totalNumActions boards)
      ∧ BatchScore s backend boards =
          some (backend.run feeds TFFetch.boardPredictions,
            segmentsByCounts (boards.map (fun b => b.numActions))
              (if 0 < totalNumActions boards then
                backend.run feeds TFFetch.actionsPredictions
              else [])) := by
  constructor
  · constructor
    · intro hmem
      by_contra h
      simp [batchScoreFetches, h] at hmem
    · intro h
      simp [batchScoreFetches, h]
  · unfold BatchScore
    rw [if_neg (by simpa [List.length_eq_zero] using hne), hbf]
    simp only [batchScoreFetches_map_getD0]
    rw [if_neg (by omega)]
    by_cases h : 0 < totalNumActions boards
    · rw [if_pos h, batchScoreFetches_map_getD1 backend feeds _ h,
        if_neg (by rw [hprobs h]; omega),
        sliceActionProbs_eq_segments boards _ (hprobs h)]
      simp [h]
    · rw [if_neg h, if_neg h]
      have h0 : totalNumActions boards = 0 := by omega
      rw [segmentsByCounts_zero _ (by simpa [totalNumActions, BoardData.numActions,
        Function.comp] using h0)]
      simp

/-- Witness for C4: the spec's `[2, 0, 5]` scenario sliced into segments
of lengths 2, 0, 5 in order. -/
theorem batchScore_fetch_and_slicing_witness :
    BatchScore oneSessionScorer fixedBackend scenarioBatch =
      some ([100, 200, 300], [[1, 2], [], [3, 4, 5, 6, 7]]) := by
  have h := batchScore_fetch_and_slicing oneSessionScorer fixedBackend scenarioBatch
    feedsScenario (by exact List.cons_ne_nil _ _) (by decide) (by decide)
    (fun _ => by decide)
  exact h.2.trans (by decide)

/-- C7: `BatchScore` fails fatally (never returns a result) exactly when
the board list is empty, the backend's value-prediction count differs from
the board count, or the fetched action-probability count differs from the
batch's total legal-action count. -/
theorem batchScore_fatal_cases (s : TFScorer) (backend : TFBackend)
    (boards : List BoardData) (feeds : Feeds)
    (hbf : buildFeeds s boards = some (feeds, totalNumActions boards)) :
    BatchScore s backend boards = none ↔
      boards = []
      ∨ (backend.run feeds TFFetch.boardPredictions).length ≠ boards.length
      ∨ (0 < totalNumActions boards ∧
          (backend.run feeds TFFetch.actionsPredictions).length ≠
            totalNumActions boards) := by
  unfold BatchScore
  by_cases hb : boards.length = 0
  · rw [if_pos hb]
    simp [List.length_eq_zero.mp hb]
  · rw [if_neg hb, hbf]
    have hbne : ¬ boards = [] := by
      intro hcon
      rw [hcon] at hb
      exact hb rfl
    simp only [batchScoreFetches_map_getD0]
    by_cases hv : (backend.run feeds TFFetch.boardPredictions).length = boards.length
    · rw [if_neg (by omega)]
      by_cases h : 0 < totalNumActions boards
      · rw [if_pos h, batchScoreFetches_map_getD1 backend feeds _ h]
        by_cases hp : (backend.run feeds TFFetch.actionsPredictions).length =
            totalNumActions boards
        · rw [if_neg (by omega), sliceActionProbs_eq_segments boards _ hp]
          simp [hbne, hv, hp]
        · rw [if_pos (by omega)]
          simp [hbne, h, hp]
      · rw [if_neg h]
        simp [hbne, hv, h]
    · rw [if_pos (by omega)]
      simp [hbne, hv]

/-- Witness for C7: a singleton batch against a backend returning three
value predictions panics on the cardinality mismatch. -/
theorem batchScore_fatal_cases_witness :
    BatchScore oneSessionScorer fixedBackend oneBoardBatch = none := by
  have h := batchScore_fatal_cases oneSessionScorer fixedBackend oneBoardBatch feedsB2
    (by decide)
  exact h.mpr (Or.inr (Or.inl (by decide)))

/-- The label-collection loop succeeds, returning the concatenation of the
(non-empty) label lists, when every list is empty or matches its board's
action count. -/
theorem buildSparseLabels_ok (boards : List BoardData) :
    ∀ (ls : List (List Int)) (ii : Nat), ii + ls.length ≤ boards.length →
      (∀ j, j < ls.length →
        ls.getD j [] = []
          ∨ (ls.getD j []).length = (boards.getD (ii + j) trivialBoard).numActions) →
      buildSparseLabels boards ii ls = Except.ok ls.flatten := by
  intro ls
  induction ls with
  | nil =>
    intro ii _ _
    simp [buildSparseLabels]
  | cons labels rest ih =>
    intro ii hlen hcond
    have hii : ii < boards.length := by simp at hlen; omega
    have hrec := ih (ii + 1) (by simp at hlen ⊢; omega)
      (fun j hj => by
        have := hcond (j + 1) (by simpa using Nat.succ_lt_succ hj)
        simpa [Nat.add_assoc, Nat.add_comm 1 j] using this)
    have hsome : boards[ii]? = some (boards.getD ii trivialBoard) := by
      rw [List.getElem?_eq_getElem hii, List.getD_eq_getElem boards trivialBoard hii]
    unfold buildSparseLabels
    by_cases hpos : labels.length > 0
    · have h0 := hcond 0 (by simp)
      simp only [List.getD_cons_zero, Nat.add_zero] at h0
      have hl : labels.length = (boards.getD ii trivialBoard).numActions := by
        rcases h0 with h | h
        · rw [h] at hpos
          simp at hpos
        · exact h
      rw [if_pos hpos]
      simp only [hsome]
      rw [if_neg (by omega), hrec]
      simp [Except.map]
    · rw [if_neg hpos]
      have hnil : labels = [] := by
        cases labels with
        | nil => rfl
        | cons x xs => simp at hpos
      rw [hrec, hnil]
      simp

/-- The label-collection loop fails with the size panic when some
non-empty label list does not match its board's action count (and the
loop index never escapes the boards). -/
theorem buildSparseLabels_err (boards : List BoardData) :
    ∀ (ls : List (List Int)) (ii : Nat), ii + ls.length ≤ boards.length →
      ¬ (∀ j, j < ls.length →
        ls.getD j [] = []
          ∨ (ls.getD j []).length = (boards.getD (ii + j) trivialBoard).numActions) →
      buildSparseLabels boards ii ls = Except.error TFError.labelsSize := by
  intro ls
  induction ls with
  | nil =>
    intro ii _ hcond
    exact absurd (fun j hj => by simp at hj) hcond
  | cons labels rest ih =>
    intro ii hlen hcond
    have hii : ii < boards.length := by simp at hlen; omega
    have hsome : boards[ii]? = some (boards.getD ii trivialBoard) := by
      rw [List.getElem?_eq_getElem hii, List.getD_eq_getElem boards trivialBoard hii]
    unfold buildSparseLabels
    by_cases hviol : labels.length > 0 ∧
        labels.length ≠ (boards.getD ii trivialBoard).numActions
    · rw [if_pos hviol.1]
      simp only [hsome]
      rw [if_pos hviol.2]
    · have hrest : ¬ (∀ j, j < rest.length →
          rest.getD j [] = []
            ∨ (rest.getD j []).length = (boards.getD (ii + 1 + j) trivialBoard).numActions) := by
        intro hcon
        apply hcond
        intro j hj
        cases j with
        | zero =>
          by_cases hpos : labels.length > 0
          · right
            simp only [List.getD_cons_zero, Nat.add_zero]
            by_contra hno
            exact hviol ⟨hpos, hno⟩
          · left
            cases labels with
            | nil => rfl
            | cons x xs => simp at hpos
        | succ m =>
          have := hcon m (by simpa using Nat.lt_of_succ_lt_succ hj)
          simpa [Nat.add_assoc, Nat.add_comm 1 m] using this
      have hrec := ih (ii + 1) (by simp at hlen ⊢; omega) hrest
      by_cases hpos : labels.length > 0
      · rw [if_pos hpos]
        simp only [hsome]
        have hl : labels.length = (boards.getD ii trivialBoard).numActions := by
          by_contra hno
          exact hviol ⟨hpos, hno⟩
        rw [if_neg (by omega), hrec]
        simp [Except.map]
      · rw [if_neg hpos]
        exact hrec

/-- C10: a `Learn` call (single-session pool, non-empty batch, one label
list per board) succeeds exactly when every board's per-action label list
is empty or has the board's legal-action count and the concatenation of
the label lists has the batch's total legal-action count; any violation
fails fatally, and empty label lists are skipped — the labels fed to the
train step are exactly the concatenation of the given lists, with no zero
inserted for a skipped board. -/
theorem learn_label_validation (s : TFScorer) (backend : TFBackend)
    (boards : List BoardData) (boardLabels : List Int)
    (actionsLabels : List (List Int)) (lr : Int) (steps : Nat) (feeds : Feeds)
    (hp : ¬ 1 < s.sessionPool.length)
    (hbf : buildFeeds s boards = some (feeds, totalNumActions boards))
    (hne : boards ≠ [])
    (hlen : actionsLabels.length = boards.length) :
    ((∃ loss, Learn s backend boards boardLabels actionsLabels lr steps =
        Except.ok loss) ↔
      ((∀ j, j < actionsLabels.length →
          actionsLabels.getD j [] = []
            ∨ (actionsLabels.getD j []).length = (boards.getD j trivialBoard).numActions)
        ∧ actionsLabels.flatten.length = totalNumActions boards))
      ∧ ((∀ j, j < actionsLabels.length →
          actionsLabels.getD j [] = []
            ∨ (actionsLabels.getD j []).length = (boards.getD j trivialBoard).numActions) →
        actionsLabels.flatten.length = totalNumActions boards →
        Learn s backend boards boardLabels actionsLabels lr steps =
          Except.ok (backend.loss feeds boardLabels actionsLabels.flatten lr steps)) := by
  have hlen0 : ¬ boards.length = 0 := by
    simpa [List.length_eq_zero] using hne
  by_cases hcond : ∀ j, j < actionsLabels.length →
      actionsLabels.getD j [] = []
        ∨ (actionsLabels.getD j []).length = (boards.getD j trivialBoard).numActions
  · have hok := buildSparseLabels_ok boards actionsLabels 0 (by omega)
      (fun j hj => by simpa using hcond j hj)
    unfold Learn
    rw [if_neg hp, hbf]
    simp only [if_neg hlen0, hok]
    by_cases htot : actionsLabels.flatten.length = totalNumActions boards
    · rw [if_neg (by omega)]
      exact ⟨⟨fun _ => ⟨hcond, htot⟩, fun _ => ⟨_, rfl⟩⟩, fun _ _ => rfl⟩
    · rw [if_pos (by omega)]
      constructor
      · constructor
        · intro hex
          rcases hex with ⟨l, hl⟩
          simp at hl
        · intro hco
          exact absurd hco.2 htot
      · intro _ hco
        exact absurd hco htot
  · have herr := buildSparseLabels_err boards actionsLabels 0 (by omega)
      (fun hcon => hcond (fun j hj => by simpa using hcon j hj))
    unfold Learn
    rw [if_neg hp, hbf]
    simp only [if_neg hlen0, herr]
    constructor
    · constructor
      · intro hex
        rcases hex with ⟨l, hl⟩
        simp at hl
      · intro hco
        exact absurd hco.1 hcond
    · intro hco
      exact absurd hco hcond

/-- Witness for C10: one board with two actions, one two-entry label list:
`Learn` runs the train step on the concatenated labels and returns the
backend loss. -/
theorem learn_label_validation_witness :
    Learn oneSessionScorer fixedBackend oneBoardBatch [0] [[5, 6]] 1 3 =
      Except.ok 42 := by
  have h := learn_label_validation oneSessionScorer fixedBackend oneBoardBatch [0]
    [[5, 6]] 1 3 feedsB2 (by decide) (by decide) (by exact List.cons_ne_nil _ _)
    (by decide)
  exact (h.2 (by decide) (by decide)).trans rfl

/-- The scores accumulated by the wrapper loop: the accumulator followed by
each board's `Score` value, in order. -/
theorem bswLoop_scores (score : ScoreFn) (n : Nat) :
    ∀ (rest : List BoardData) (ii : Nat) (scores : List Int)
      (batch : Option (List (Option (List Int)))),
      (bswLoop score n ii rest scores batch).1 =
        scores ++ rest.map (fun b => (score b).1) := by
  intro rest
  induction rest with
  | nil =>
    intro ii scores batch
    simp [bswLoop]
  | cons b r ih =>
    intro ii scores batch
    simp only [bswLoop]
    rw [ih]
    simp

/-- The wrapper loop never touches batch entries below its loop index. -/
theorem bswLoop_batch_stable (score : ScoreFn) (n j : Nat) :
    ∀ (rest : List BoardData) (ii : Nat) (scores : List Int)
      (batch : Option (List (Option (List Int)))), j < ii →
      ((bswLoop score n ii rest scores batch).2.getD (List.replicate n none)).getD j none =
        (batch.getD (List.replicate n none)).getD j none := by
  intro rest
  induction rest with
  | nil =>
    intro ii scores batch hj
    rfl
  | cons b r ih =>
    intro ii scores batch hj
    simp only [bswLoop]
    rcases hsc : (score b).2 with _ | probs
    · exact ih (ii + 1) _ _ (by omega)
    · rw [ih (ii + 1) _ _ (by omega)]
      simp only [Option.getD_some]
      rw [List.getD_eq_getElem?_getD, List.getD_eq_getElem?_getD,
        List.getElem?_set_ne (by omega)]

/-- A batch entry in the loop's remaining range ends up holding exactly the
probabilities `Score` returns for its board (`none` entries are left as
the `nil` slots of the freshly allocated batch). -/
theorem bswLoop_batch_getD (score : ScoreFn) (n j : Nat) (hjn : j < n) :
    ∀ (rest : List BoardData) (ii : Nat) (scores : List Int)
      (batch : Option (List (Option (List Int)))),
      (∀ l, batch = some l → l.length = n) →
      (batch.getD (List.replicate n none)).getD j none = none →
      ii ≤ j → j < ii + rest.length →
      ((bswLoop score n ii rest scores batch).2.getD (List.replicate n none)).getD j none =
        (score (rest.getD (j - ii) trivialBoard)).2 := by
  intro rest
  induction rest with
  | nil =>
    intro ii scores batch _ _ hij hlt
    simp at hlt
    omega
  | cons b r ih =>
    intro ii scores batch hlen hfresh hij hlt
    have hblen : (batch.getD (List.replicate n none)).length = n := by
      rcases batch with _ | l
      · simp
      · simpa using hlen l rfl
    by_cases hje : j = ii
    · subst hje
      simp only [bswLoop]
      rcases hsc : (score b).2 with _ | probs
      · rw [bswLoop_batch_stable score n j r (j + 1) _ _ (by omega), hfresh]
        simp [hsc]
      · rw [bswLoop_batch_stable score n j r (j + 1) _ _ (by omega)]
        simp only [Option.getD_some, List.getD_eq_getElem?_getD]
        rw [List.getElem?_set_eq_of_lt _ (by omega)]
        simp [hsc]
    · simp only [bswLoop]
      rcases hsc : (score b).2 with _ | probs
      · rw [ih (ii + 1) _ _ hlen hfresh (by omega) (by simp at hlt ⊢; omega)]
        have : (b :: r).getD (j - ii) trivialBoard = r.getD (j - (ii + 1)) trivialBoard := by
          have hd : j - ii = (j - (ii + 1)) + 1 := by omega
          rw [hd]
          simp
        rw [this]
      · rw [ih (ii + 1) _ _ (fun l hl => by
            injection hl with hl
            rw [← hl, List.length_set, hblen])
          (by
            simp only [Option.getD_some, List.getD_eq_getElem?_getD]
            rw [List.getElem?_set_ne (by omega)]
            rw [List.getD_eq_getElem?_getD] at hfresh
            exact hfresh)
          (by omega) (by simp at hlt ⊢; omega)]
        have : (b :: r).getD (j - ii) trivialBoard = r.getD (j - (ii + 1)) trivialBoard := by
          have hd : j - ii = (j - (ii + 1)) + 1 := by omega
          rw [hd]
          simp
        rw [this]

/-- C9: the default batch adapter agrees element-wise with scoring each
board independently: the `i`-th score equals `Score` of the `i`-th board,
and the `i`-th action-probability slice (reading the not-yet-allocated
batch as all-`nil`) equals the one `Score` returns for that board. -/
theorem batchScorerWrapper_agrees (score : ScoreFn) (boards : List BoardData)
    (hne : boards ≠ []) (i : Nat) (hi : i < boards.length) :
    (BatchScorerWrapperBatchScore score boards).1.getD i 0 =
        (score (boards.getD i trivialBoard)).1
      ∧ ((BatchScorerWrapperBatchScore score boards).2.getD
            (List.replicate boards.length none)).getD i none =
          (score (boards.getD i trivialBoard)).2 := by
  constructor
  · unfold BatchScorerWrapperBatchScore
    rw [bswLoop_scores]
    simp only [List.nil_append, List.getD_eq_getElem?_getD, List.getElem?_map]
    rw [List.getElem?_eq_getElem hi]
    simp
  · unfold BatchScorerWrapperBatchScore
    rw [bswLoop_batch_getD score boards.length i hi boards 0 [] none
      (fun l hl => by cases hl) (by simp) (by omega) (by omega)]
    simp

/-- Witness for C9 on a concrete scorer and two boards (one with, one
without action probabilities). -/
theorem batchScorerWrapper_agrees_witness :
    (BatchScorerWrapperBatchScore exampleScoreFn exampleBoards).1.getD 0 0 =
        (exampleScoreFn (exampleBoards.getD 0 trivialBoard)).1
      ∧ ((BatchScorerWrapperBatchScore exampleScoreFn exampleBoards).2.getD
            (List.replicate exampleBoards.length none)).getD 0 none =
          (exampleScoreFn (exampleBoards.getD 0 trivialBoard)).2 :=
  batchScorerWrapper_agrees exampleScoreFn exampleBoards
    (List.cons_ne_nil _ _) 0 (by decide)

theorem setChain_length : ∀ (vals f : List Int) (i : Nat),
    (setChain f i vals).length = f.length := by
  intro vals
  induction vals with
  | nil =>
    intro f i
    rfl
  | cons v rest ih =>
    intro f i
    rw [setChain, ih, List.length_set]

theorem getElem?_setChain : ∀ (vals f : List Int) (i m : Nat),
    (setChain f i vals)[m]? =
      if i ≤ m ∧ m < i + vals.length ∧ m < f.length then vals[m - i]? else f[m]? := by
  intro vals
  induction vals with
  | nil =>
    intro f i m
    simp only [setChain, List.length_nil]
    rw [if_neg (by omega)]
  | cons v rest ih =>
    intro f i m
    rw [setChain, ih, List.length_set]
    by_cases h1 : i + 1 ≤ m ∧ m < i + 1 + rest.length ∧ m < f.length
    · rw [if_pos h1, if_pos (by simp; omega)]
      have hm : m - i = (m - (i + 1)) + 1 := by omega
      rw [hm]
      simp
    · rw [if_neg h1]
      by_cases h2 : m = i
      · subst h2
        by_cases h3 : m < f.length
        · rw [if_pos (by simp; omega)]
          rw [List.getElem?_set_eq_of_lt _ h3]
          simp
        · rw [if_neg (by simp; omega)]
          rw [List.getElem?_eq_none (by simp; omega), List.getElem?_eq_none (by omega)]
      · rw [List.getElem?_set_ne (by omega), if_neg (by simp; omega)]

/-- Every registered writer is a consecutive-write chain of its own slice
at the offset it is handed: the bridge from the Go writers' in-place
stores to the layout reasoning below. -/
theorem setter_setChain (b : BoardData) :
    ∀ d ∈ AllFeatures, ∀ (f : List Int) (idx : Nat),
      d.Setter b d.FId idx f = setChain f idx (featSlice b d) := by
  intro d hd
  fin_cases hd <;> (intro f idx; rfl)

theorem featSlice_length (b : BoardData) :
    ∀ d ∈ AllFeatures, (featSlice b d).length = d.Dim := by
  intro d hd
  fin_cases hd <;> rfl

theorem allFeatures_bounds : ∀ d ∈ AllFeatures, d.VecIndex + d.Dim ≤ AllFeaturesDim := by
  decide

theorem allFeatures_ascending :
    AllFeatures.Pairwise (fun d e => d.VecIndex + d.Dim ≤ e.VecIndex) := by
  decide

theorem allFeatures_fids_nodup : (AllFeatures.map (fun d => d.FId)).Nodup := by
  decide

theorem allFeatures_contiguous : contiguousFrom 0 AllFeatures :=
  ⟨rfl, rfl, rfl, rfl, rfl, rfl, rfl, rfl, rfl, rfl, rfl, trivial⟩

theorem extract_setChain_self (f vals : List Int) (i : Nat)
    (h : i + vals.length ≤ f.length) :
    ((setChain f i vals).drop i).take vals.length = vals := by
  apply List.ext_getElem?
  intro k
  rw [List.getElem?_take, List.getElem?_drop]
  by_cases hk : k < vals.length
  · rw [if_pos hk, getElem?_setChain, if_pos (by omega)]
    congr 1
    omega
  · rw [if_neg hk, eq_comm, List.getElem?_eq_none (by omega)]

theorem extract_setChain_disjoint (f vals : List Int) (j i n : Nat)
    (h : j + vals.length ≤ i ∨ i + n ≤ j) :
    ((setChain f j vals).drop i).take n = (f.drop i).take n := by
  apply List.ext_getElem?
  intro k
  rw [List.getElem?_take, List.getElem?_take]
  by_cases hk : k < n
  · rw [if_pos hk, if_pos hk, List.getElem?_drop, List.getElem?_drop,
      getElem?_setChain, if_neg (by omega)]
  · rw [if_neg hk, if_neg hk]

/-- The scratch-pass fold over any sub-registry preserves the buffer
length. -/
theorem foldl_setters_length (b : BoardData) :
    ∀ (sub : List FeatureDef), sub.Sublist AllFeatures →
      ∀ (init : List Int),
        (sub.foldl (fun f d => d.Setter b d.FId d.VecIndex f) init).length =
          init.length := by
  intro sub
  induction sub with
  | nil =>
    intro _ init
    rfl
  | cons e rest ih =>
    intro hsub init
    have he : e ∈ AllFeatures := hsub.subset (by simp)
    rw [List.foldl_cons, ih (List.sublist_of_cons_sublist hsub),
      setter_setChain b e he, setChain_length]

/-- The scratch-pass fold leaves any region disjoint from all written
features untouched. -/
theorem foldl_setters_preserve (b : BoardData) :
    ∀ (sub : List FeatureDef), sub.Sublist AllFeatures →
      ∀ (init : List Int) (i n : Nat),
        (∀ e ∈ sub, e.VecIndex + e.Dim ≤ i ∨ i + n ≤ e.VecIndex) →
        ((sub.foldl (fun f d => d.Setter b d.FId d.VecIndex f) init).drop i).take n =
          (init.drop i).take n := by
  intro sub
  induction sub with
  | nil =>
    intro _ init i n _
    rfl
  | cons e rest ih =>
    intro hsub init i n hdis
    have he : e ∈ AllFeatures := hsub.subset (by simp)
    rw [List.foldl_cons, ih (List.sublist_of_cons_sublist hsub) _ _ _
      (fun x hx => hdis x (by simp [hx])), setter_setChain b e he]
    rw [extract_setChain_disjoint]
    have hde := hdis e (by simp)
    rw [featSlice_length b e he]
    exact hde

/-- After the scratch pass over an ascending sub-registry, each written
feature's region holds exactly its writer's slice. -/
theorem foldl_setters_extract (b : BoardData) :
    ∀ (sub : List FeatureDef), sub.Sublist AllFeatures →
      sub.Pairwise (fun d e => d.VecIndex + d.Dim ≤ e.VecIndex) →
      ∀ (init : List Int), init.length = AllFeaturesDim →
        ∀ d ∈ sub,
          ((sub.foldl (fun f d => d.Setter b d.FId d.VecIndex f) init).drop
              d.VecIndex).take d.Dim = featSlice b d := by
  intro sub
  induction sub with
  | nil =>
    intro _ _ _ _ d hd
    simp at hd
  | cons e rest ih =>
    intro hsub hpair init hlen d hd
    have he : e ∈ AllFeatures := hsub.subset (by simp)
    rw [List.foldl_cons]
    rcases List.mem_cons.mp hd with hde | hdr
    · subst hde
      rw [foldl_setters_preserve b rest (List.sublist_of_cons_sublist hsub) _ _ _
        (fun x hx => Or.inr ((List.pairwise_cons.mp hpair).1 x hx))]
      rw [setter_setChain b d he]
      rw [← featSlice_length b d he]
      exact extract_setChain_self _ _ _
        (by rw [hlen, featSlice_length b d he]; exact allFeatures_bounds d he)
    · exact ih (List.sublist_of_cons_sublist hsub) (List.pairwise_cons.mp hpair).2 _
        (by rw [setter_setChain b e he, setChain_length, hlen]) d hdr

theorem foldl_ite_filter {α β : Type} (p : β → Prop) [DecidablePred p] (g : α → β → α) :
    ∀ (l : List β) (init : α),
      l.foldl (fun a x => if p x then g a x else a) init =
        (l.filter (fun x => decide (p x))).foldl g init := by
  intro l
  induction l with
  | nil =>
    intro init
    rfl
  | cons x xs ih =>
    intro init
    by_cases hx : p x <;> simp [hx, ih]

theorem foldl_append_flatten {β γ : Type} (seg : β → List γ) :
    ∀ (l : List β) (acc : List γ),
      l.foldl (fun a x => a ++ seg x) acc = acc ++ (l.map seg).flatten := by
  intro l
  induction l with
  | nil =>
    intro acc
    simp
  | cons x xs ih =>
    intro acc
    simp [ih]

/-- A buffer tiled by a contiguous feature layout is the concatenation of
its per-feature regions. -/
theorem tile_eq_flatten (f : List Int) :
    ∀ (ds : List FeatureDef) (s : Nat), contiguousFrom s ds →
      f.length = s + (ds.map (fun d => d.Dim)).sum →
      f.drop s = (ds.map (fun d => (f.drop d.VecIndex).take d.Dim)).flatten := by
  intro ds
  induction ds with
  | nil =>
    intro s _ hlen
    have hle : f.length ≤ s := by simp at hlen; omega
    simp [List.drop_eq_nil_of_le hle]
  | cons d rest ih =>
    intro s hcont hlen
    simp only [contiguousFrom] at hcont
    simp only [List.map_cons, List.flatten_cons]
    rw [← ih (s + d.Dim) hcont.2 (by simp at hlen ⊢; omega)]
    rw [hcont.1]
    rw [← List.drop_drop]
    exact (List.take_append_drop _ _).symm

/-- The full scratch pass writes the whole buffer: it equals the
concatenation of every feature's slice. -/
theorem scratch_full_eq (b : BoardData) :
    AllFeatures.foldl (fun f featDef => featDef.Setter b featDef.FId featDef.VecIndex f)
        (List.replicate AllFeaturesDim (0 : Int)) =
      (AllFeatures.map (featSlice b)).flatten := by
  have hlen : (AllFeatures.foldl
      (fun f featDef => featDef.Setter b featDef.FId featDef.VecIndex f)
      (List.replicate AllFeaturesDim (0 : Int))).length =
      0 + (AllFeatures.map (fun d => d.Dim)).sum := by
    rw [foldl_setters_length b AllFeatures (List.Sublist.refl _)]
    simp only [List.length_replicate, Nat.zero_add]
    rfl
  have h2 := tile_eq_flatten _ AllFeatures 0 allFeatures_contiguous hlen
  rw [List.drop_zero] at h2
  rw [h2]
  refine congrArg List.flatten (List.map_congr_left ?_)
  intro d hd
  exact foldl_setters_extract b AllFeatures (List.Sublist.refl _)
    allFeatures_ascending _ (by simp) d hd

/-- The encoder characterization: for every version within the registry
width, `FeatureVector` is the concatenation, in registry order, of the
writer slices of exactly the features introduced at or before that
version. -/
theorem featureVector_eq_slices (b : BoardData) (v : Int) (h0 : 0 ≤ v)
    (hv : v ≤ (AllFeaturesDim : Int)) :
    FeatureVector b v = some (((includedFeatures v).map (featSlice b)).flatten) := by
  have hgt : ¬ ((AllFeaturesDim : Int) < v) := by omega
  have hsub : (includedFeatures v).Sublist AllFeatures := List.filter_sublist _
  have hpair : (includedFeatures v).Pairwise
      (fun d e => d.VecIndex + d.Dim ≤ e.VecIndex) :=
    allFeatures_ascending.sublist hsub
  by_cases h41 : v = (AllFeaturesDim : Int)
  · simp only [FeatureVector]
    rw [if_neg hgt, if_neg (fun hcon => hcon h41)]
    rw [foldl_ite_filter (fun d : FeatureDef => d.Version ≤ v)
      (fun (f : List Int) (featDef : FeatureDef) =>
        featDef.Setter b featDef.FId featDef.VecIndex f)]
    rw [show (AllFeatures.filter (fun x : FeatureDef => decide (x.Version ≤ v))) =
      includedFeatures v from rfl]
    have hincl : includedFeatures v = AllFeatures := by
      apply List.filter_eq_self.mpr
      intro d hd
      fin_cases hd <;> (rw [h41]; decide)
    rw [hincl]
    exact congrArg some (scratch_full_eq b)
  · simp only [FeatureVector]
    rw [if_neg hgt, if_pos h41, if_neg (show ¬ v < 0 by omega)]
    rw [foldl_ite_filter (fun d : FeatureDef => d.Version ≤ v)
      (fun (f : List Int) (featDef : FeatureDef) =>
        featDef.Setter b featDef.FId featDef.VecIndex f)]
    rw [show (AllFeatures.filter (fun x : FeatureDef => decide (x.Version ≤ v))) =
      includedFeatures v from rfl]
    rw [foldl_ite_filter (fun d : FeatureDef => d.Version ≤ v)
      (fun (newF : List Int) (featDef : FeatureDef) =>
        newF ++ (((includedFeatures v).foldl
            (fun (f : List Int) (d2 : FeatureDef) => d2.Setter b d2.FId d2.VecIndex f)
            (List.replicate AllFeaturesDim 0)).drop featDef.VecIndex).take featDef.Dim)]
    rw [show (AllFeatures.filter (fun x : FeatureDef => decide (x.Version ≤ v))) =
      includedFeatures v from rfl]
    rw [foldl_append_flatten]
    rw [List.nil_append]
    refine congrArg some (congrArg List.flatten (List.map_congr_left ?_))
    intro d hd
    exact foldl_setters_extract b (includedFeatures v) hsub hpair _ (by simp) d hd

/-- Extracting a feature's segment, by its layout offset, from the
concatenation of a duplicate-free feature list's slices recovers exactly
that feature's slice. -/
theorem flatten_slices_extract (b : BoardData) :
    ∀ (ds : List FeatureDef), (ds.map (fun d => d.FId)).Nodup →
      (∀ e ∈ ds, (featSlice b e).length = e.Dim) →
      ∀ d ∈ ds,
        (((ds.map (featSlice b)).flatten).drop (layoutOffset ds d.FId)).take d.Dim =
          featSlice b d := by
  intro ds
  induction ds with
  | nil =>
    intro _ _ d hd
    simp at hd
  | cons e rest ih =>
    intro hnodup hlen d hd
    simp only [List.map_cons, List.flatten_cons, layoutOffset]
    by_cases hfid : e.FId = d.FId
    · rw [if_pos hfid]
      have hde : d = e := by
        rcases List.mem_cons.mp hd with h | h
        · exact h
        · exfalso
          have hmem : d.FId ∈ rest.map (fun d => d.FId) := List.mem_map_of_mem _ h
          rw [← hfid] at hmem
          exact (List.nodup_cons.mp (by simpa using hnodup)).1 hmem
      subst hde
      rw [List.drop_zero, ← hlen d (by simp), List.take_left]
    · rw [if_neg hfid]
      have hdr : d ∈ rest := by
        rcases List.mem_cons.mp hd with h | h
        · exact absurd (congrArg (fun x => FeatureDef.FId x) h).symm hfid
        · exact h
      rw [← hlen e (by simp), ← List.drop_drop, List.drop_left]
      exact ih (by simpa using (List.nodup_cons.mp (by simpa using hnodup)).2)
        (fun x hx => hlen x (by simp [hx])) d hdr

/-- C1 counterexample: the claim "FeatureVector(b, v) returns a vector of
exactly v elements" fails at version 1 (which is at most the full width
41): the encoder returns the 37 elements of the version-0 features. -/
theorem featureVector_length_counterexample :
    (FeatureVector trivialBoard 1).map List.length = some 37
      ∧ (1 : Int) ≤ (AllFeaturesDim : Int)
      ∧ (37 : Nat) ≠ 1 :=
  ⟨by decide, by decide, by decide⟩

/-- C1 (amended): for every version `0 ≤ v ≤ AllFeaturesDim` (negative
versions fail fatally in the compacted-buffer allocation, see C6) the
encoder returns, in registry order, the concatenation of the slices of
exactly those features whose introduction version is at most `v` (so its
length is the total dimension of those features — equal to `v` only at
the realized schema widths); `encode(b, fullWidth)` has the registry's
full width; and the prefix-compatibility law holds: `encode(b, v1)`
equals `encode(b, v2)` restricted, in registry order, to the features
introduced at or before `v1` (reading each feature's segment at its
layout offset in the v2 vector). -/
theorem featureVector_versioning (b : BoardData) (v1 v2 : Int)
    (h0 : 0 ≤ v1) (h12 : v1 ≤ v2) (h2 : v2 ≤ (AllFeaturesDim : Int)) :
    FeatureVector b v1 = some (((includedFeatures v1).map (featSlice b)).flatten)
      ∧ (FeatureVector b (AllFeaturesDim : Int)).map List.length = some AllFeaturesDim
      ∧ FeatureVector b v1 = (FeatureVector b v2).map (fun l2 =>
          ((includedFeatures v1).map (fun d =>
            (l2.drop (layoutOffset (includedFeatures v2) d.FId)).take d.Dim)).flatten) := by
  refine ⟨featureVector_eq_slices b v1 h0 (le_trans h12 h2), ?_, ?_⟩
  · rw [featureVector_eq_slices b _ (by omega) (le_refl _)]
    have hincl : includedFeatures (AllFeaturesDim : Int) = AllFeatures := by
      apply List.filter_eq_self.mpr
      intro d hd
      fin_cases hd <;> decide
    rw [hincl]
    simp only [Option.map_some']
    congr 1
  · rw [featureVector_eq_slices b v1 h0 (le_trans h12 h2),
      featureVector_eq_slices b v2 (by omega) h2]
    simp only [Option.map_some']
    refine congrArg some (congrArg List.flatten (List.map_congr_left ?_).symm)
    intro d hd
    have hsub2 : (includedFeatures v2).Sublist AllFeatures := List.filter_sublist _
    have hnodup : ((includedFeatures v2).map (fun d => d.FId)).Nodup :=
      allFeatures_fids_nodup.sublist (hsub2.map _)
    have hlens : ∀ e ∈ includedFeatures v2, (featSlice b e).length = e.Dim :=
      fun e he => featSlice_length b e (hsub2.subset he)
    have hmem : d ∈ includedFeatures v2 := by
      rcases List.mem_filter.mp hd with ⟨hmem1, hcond⟩
      refine List.mem_filter.mpr ⟨hmem1, ?_⟩
      simp only [decide_eq_true_eq] at hcond ⊢
      omega
    exact flatten_slices_extract b (includedFeatures v2) hnodup hlens d hmem

/-- Witness for C1's amended theorem at versions 37 and 39 on a concrete
board. -/
theorem featureVector_versioning_witness :
    FeatureVector bugBoard 37 =
        some (((includedFeatures 37).map (featSlice bugBoard)).flatten)
      ∧ (FeatureVector bugBoard (AllFeaturesDim : Int)).map List.length =
          some AllFeaturesDim
      ∧ FeatureVector bugBoard 37 = (FeatureVector bugBoard 39).map (fun l2 =>
          ((includedFeatures 37).map (fun d =>
            (l2.drop (layoutOffset (includedFeatures 39) d.FId)).take d.Dim)).flatten) :=
  featureVector_versioning bugBoard 37 39 (by decide) (by decide) (by decide)

/-- C3 (code bug): the writer `fNumThreateningMoves` never swaps sides for
`F_OPP_NUM_THREATENING_MOVES` — its guard tests `F_OPP_NUM_CAN_MOVE` — so
the `OppNumThreateningMoves` entries (offsets 34–35) always equal the
`NumThreateningMoves` entries (offsets 32–33) computed for the side to
move, not the sides-swapped computation.  On `bugBoard` both slices are
`[1, 1]` while the sides-swapped computation yields `(0, 0)`. -/
theorem oppThreatening_not_swapped :
    (∀ (b : BoardData) (idx : Nat) (f : List Int),
        fNumThreateningMoves b FeatureId.F_OPP_NUM_THREATENING_MOVES idx f =
          fNumThreateningMoves b FeatureId.F_NUM_THREATENING_MOVES idx f)
      ∧ (FeatureVector bugBoard 41).map (fun l => (l.drop 34).take 2) = some [1, 1]
      ∧ (FeatureVector bugBoard 41).map (fun l => (l.drop 32).take 2) = some [1, 1]
      ∧ threateningCounts bugBoard bugBoard.opponentPlayer bugBoard.nextPlayer = (0, 0) :=
  ⟨fun _ _ _ => rfl, by decide, by decide, by decide⟩

end HiveGo
